import Mathlib

/-!
Verification development for the HDGRACE BAS 29.3.1 XML generator.

The definitions below are a shallow embedding of the Python sources
`bas_29_3_1_enterprise_xml_generator.py` and `hdgrace_bas_xml_generator.py`.
Text is modelled as `List Char`; the scanning functions mirror the exact
semantics of `re.sub` with a literal pattern plus a negative lookahead for a
double quote, of `str.replace`, and of the quoted-span rewriting in
`_apply_corrections`.  Scanning functions take an explicit fuel argument
(always instantiated with the length of the scanned text) so that every
definition is kernel-computable; fuel-irrelevance lemmas recover clean
unfolding equations.
-/

/-- Text is a list of characters. -/
abbrev Str := List Char

/-- Negative lookahead for a double quote, as in the regex patterns
`visible=true(?!")` etc.: the position after the literal pattern is either the
end of the text or a character other than `"`. -/
def MatchF (pat s : Str) : Prop :=
  s.take pat.length = pat ∧ (s.drop pat.length).head? ≠ some '"'

instance (pat s : Str) : Decidable (MatchF pat s) := by
  unfold MatchF; infer_instance

/-- Boolean test for a match of `pat` (with the negative-lookahead for `"`)
at the front of `s`. -/
def matchFront (pat s : Str) : Bool := decide (MatchF pat s)

/-- Fuelled scanner for `re.sub(pat + lookahead, rep, s)`: leftmost,
non-overlapping replacement, continuing after the matched region of the
original text (the replacement text is never rescanned). -/
def substFuel (pat rep : Str) : Nat → Str → Str
  | _, [] => []
  | 0, s => s
  | fuel + 1, c :: s =>
    if matchFront pat (c :: s) then
      rep ++ substFuel pat rep fuel ((c :: s).drop pat.length)
    else
      c :: substFuel pat rep fuel s

/-- `re.sub` for a literal pattern with a `(?!")` lookahead, as used by
`apply_grammar_corrections`. -/
def substNL (pat rep s : Str) : Str := substFuel pat rep s.length s

/-- Fuelled scanner for Python `str.replace(pat, rep)`: leftmost,
non-overlapping, all occurrences, no lookahead. -/
def replFuel (pat rep : Str) : Nat → Str → Str
  | _, [] => []
  | 0, s => s
  | fuel + 1, c :: s =>
    if (c :: s).take pat.length = pat then
      rep ++ replFuel pat rep fuel ((c :: s).drop pat.length)
    else
      c :: replFuel pat rep fuel s

/-- Python `s.replace(pat, rep)`. -/
def replaceAll (pat rep s : Str) : Str := replFuel pat rep s.length s

/-- Python `pat in s` (substring test). -/
def containsSub (pat : Str) : Str → Bool
  | [] => decide (([] : Str).take pat.length = pat)
  | c :: s => decide ((c :: s).take pat.length = pat) || containsSub pat s

/-- Fuelled decimal rendering of a natural number, modelling Python `str(i)`. -/
def natDigitsFuel : Nat → Nat → Str
  | 0, _ => []
  | fuel + 1, n =>
    if n < 10 then [Nat.digitChar n]
    else natDigitsFuel fuel (n / 10) ++ [Nat.digitChar (n % 10)]

/-- Decimal rendering of a natural number (Python `str(i)`). -/
def natDigits (n : Nat) : Str := natDigitsFuel (n + 1) n

/-- Python `random.randint(lo, hi)` (inclusive bounds) applied to one raw
draw `x` from the random source: the result is `lo + x % (hi + 1 - lo)`. -/
def randint (lo hi x : Nat) : Nat := lo + x % (hi + 1 - lo)

/-- Boolean search for a match (pattern plus lookahead) anywhere in `s`. -/
def hasMatch (pat : Str) : Str → Bool
  | [] => matchFront pat []
  | c :: s => matchFront pat (c :: s) || hasMatch pat s

/-! The five correction patterns of `apply_grammar_corrections` (source file
`bas_29_3_1_enterprise_xml_generator.py`, lines 173-179), in source order.
Each pattern is a literal string with a trailing negative lookahead for a
double quote, and each replacement wraps the attribute value in quotes. -/
def gpVisibleTrue : Str := "visible=true".toList

def grVisibleTrue : Str := "visible=\"true\"".toList

def gpEnabledFalse : Str := "enabled=false".toList

def grEnabledFalse : Str := "enabled=\"false\"".toList

def gpEnabledTrue : Str := "enabled=true".toList

def grEnabledTrue : Str := "enabled=\"true\"".toList

def gpActiveTrue : Str := "active=true".toList

def grActiveTrue : Str := "active=\"true\"".toList

def gpVersion : Str := "version=29.3.1".toList

def grVersion : Str := "version=\"29.3.1\"".toList

/-- The ordered rule list `simple_corrections` of `apply_grammar_corrections`. -/
def grammarRules : List (Str × Str) :=
  [(gpVisibleTrue, grVisibleTrue), (gpEnabledFalse, grEnabledFalse),
   (gpEnabledTrue, grEnabledTrue), (gpActiveTrue, grActiveTrue),
   (gpVersion, grVersion)]

/-- Text transformation performed by
`BAS29_3_1_EnterpriseGenerator.apply_grammar_corrections`: the five
lookahead-guarded `re.sub` rewrites are applied in source order. -/
def apply_grammar_corrections (s : Str) : Str :=
  grammarRules.foldl (fun acc pr => substNL pr.1 pr.2 acc) s

/-- The correction lookup table `self.corrections` built by
`HDGRACEXMLGenerator._load_correction_rules`, in insertion order. -/
def corrections : List (Str × Str) :=
  [("visiable".toList, "visible".toList), ("visibile".toList, "visible".toList),
   ("visable".toList, "visible".toList), ("invisable".toList, "invisible".toList),
   ("hiden".toList, "hidden".toList), ("hideen".toList, "hidden".toList),
   ("dissable".toList, "disabled".toList), ("disible".toList, "disabled".toList),
   ("enabeld".toList, "enabled".toList), ("buton".toList, "button".toList),
   ("botton".toList, "button".toList), ("imput".toList, "input".toList),
   ("heigth".toList, "height".toList), ("widht".toList, "width".toList),
   ("colr".toList, "color".toList), ("styl".toList, "style".toList),
   ("classs".toList, "class".toList), ("methd".toList, "method".toList),
   ("Yes".toList, "true".toList), ("No".toList, "false".toList),
   ("On".toList, "true".toList), ("Off".toList, "false".toList),
   ("TRUE".toList, "true".toList), ("FALSE".toList, "false".toList),
   ("enable".toList, "enabled".toList), ("show".toList, "visible".toList),
   ("hide".toList, "hidden".toList), ("활성화됨".toList, "enabled".toList),
   ("비활성화됨".toList, "disabled".toList), ("보임".toList, "visible".toList),
   ("숨김".toList, "hidden".toList)]

/-- Body of `correct_attribute_value` in `_apply_corrections`: every
`(wrong, correct)` pair of the table is applied to the captured attribute
value with `str.replace`, in table order. -/
def correctValue (v : Str) : Str :=
  corrections.foldl (fun acc wc => replaceAll wc.1 wc.2 acc) v

/-- Fuelled scanner for the regex `"([^"]*)"` of `_apply_corrections`: it
finds each quote-delimited span, rewrites the span content with
`correctValue`, re-quotes it, and continues after the closing quote. -/
def applyCorrFuel : Nat → Str → Str
  | _, [] => []
  | 0, s => s
  | fuel + 1, c :: s =>
    if c = '"' then
      match s.span (fun d => decide (d ≠ '"')) with
      | (val, '"' :: rest) => '"' :: (correctValue val ++ '"' :: applyCorrFuel fuel rest)
      | _ => c :: applyCorrFuel fuel s
    else
      c :: applyCorrFuel fuel s

/-- Text transformation performed by `HDGRACEXMLGenerator._apply_corrections`
(quoted-span lookup-table rewriting). -/
def apply_corrections (s : Str) : Str := applyCorrFuel s.length s

/-! Document model: a minimal shallow embedding of
`xml.etree.ElementTree.Element` (tag, attributes in insertion order, text
content, children in append order). -/
/-- An element tree node. -/
inductive XTree where
  | node (tag : Str) (attrs : List (Str × Str)) (text : Str) (children : List XTree)

/-- Children of a node (the `list(element)` view of an `Element`). -/
def XTree.children : XTree → List XTree
  | .node _ _ _ c => c

/-- Tag of a node. -/
def XTree.tagOf : XTree → Str
  | .node t _ _ _ => t

/-- Attribute list of a node. -/
def XTree.attrsOf : XTree → List (Str × Str)
  | .node _ a _ _ => a

/-- Python `Element.append`. -/
def XTree.appendChild : XTree → XTree → XTree
  | .node t a x c, child => .node t a x (c ++ [child])

/-- Attribute lookup in an attribute list (first binding wins), modelling
`Element.get`. -/
def getAttr (key : Str) : List (Str × Str) → Option Str
  | [] => none
  | (k, v) :: rest => if k = key then some v else getAttr key rest

/-- Fuelled rendering of a tree to text, modelling
`xml.etree.ElementTree.tostring` (attributes in insertion order, then text,
then children, then the closing tag).  The fuel bounds the recursion depth
and is instantiated with a bound on the depth of the concrete tree. -/
def serializeFuel : Nat → XTree → Str
  | 0, _ => []
  | fuel + 1, .node t a x c =>
    '<' :: (t ++ (a.map (fun kv => ' ' :: (kv.1 ++ '=' :: '"' :: (kv.2 ++ ['"'])))).flatten
      ++ '>' :: (x ++ (c.map (serializeFuel fuel)).flatten ++ '<' :: '/' :: (t ++ ['>'])))

/-- A random source: an indexed stream of raw natural-number draws.  Every
`random.randint(a, b)` call in the source is modelled as `randint a b`
applied to one draw of the stream. -/
abbrev Rng := Nat → Nat

/-- Lower-casing of text, modelling Python `str.lower` for the ASCII
category names used by the generator. -/
def lowerStr (s : Str) : Str := s.map Char.toLower

/-! Embedding of `BAS29_3_1_EnterpriseGenerator.generate_ui_element`
(source lines 215-271). -/
def triviallyTrue : Str := "true".toList

def versionValue : Str := "29.3.1".toList

/-- The UI element built by `generate_ui_element`: the attribute list (in
`set` order), the fixed `Properties` subtree, the randomized `Styling`
subtree, and the conditional `Button` child. -/
def generate_ui_element (elementId : Nat) (category : Str) (rng : Rng) : XTree :=
  let elementName := category ++ "_Element_".toList ++ natDigits elementId
  let attrs : List (Str × Str) :=
    [("id".toList, natDigits elementId), ("name".toList, elementName),
     ("visible".toList, triviallyTrue), ("data-visible".toList, triviallyTrue),
     ("aria-visible".toList, triviallyTrue), ("enabled".toList, triviallyTrue),
     ("category".toList, category), ("version".toList, versionValue)]
  let properties : XTree :=
    .node "Properties".toList [] []
      [.node "Visibility".toList [] triviallyTrue [],
       .node "InteractionEnabled".toList [] triviallyTrue [],
       .node "AccessibilityEnabled".toList [] triviallyTrue []]
  let position : XTree :=
    .node "Position".toList
      [("x".toList, natDigits (randint 0 1920 (rng 0))),
       ("y".toList, natDigits (randint 0 1080 (rng 1))),
       ("width".toList, natDigits (randint 100 300 (rng 2))),
       ("height".toList, natDigits (randint 30 100 (rng 3)))] [] []
  let styling : XTree :=
    .node "Styling".toList
      [("theme".toList, "enterprise".toList), ("responsive".toList, triviallyTrue)] []
      [position]
  let baseChildren := [properties, styling]
  let children :=
    if containsSub "button".toList (lowerStr category) || rng 4 % 2 = 0 then
      baseChildren ++
        [.node "Button".toList
          [("visible".toList, triviallyTrue), ("enabled".toList, triviallyTrue),
           ("clickable".toList, triviallyTrue)]
          ("Button_".toList ++ natDigits elementId) []]
    else baseChildren
  .node "UIElement".toList attrs [] children

/-! Embedding of `BAS29_3_1_EnterpriseGenerator._generate_action`
(source lines 447-497). -/
/-- The UI element reference drawn by `_generate_action`:
`random.randint(1, self.ui_element_count)`. -/
def action_ui_ref (uiElementCount : Nat) (rng : Rng) : Nat :=
  randint 1 uiElementCount (rng 0)

/-- Interaction type chosen by `_generate_action`. -/
def interactionChoice (x : Nat) : Str :=
  match x % 4 with
  | 0 => "click".toList
  | 1 => "type".toList
  | 2 => "hover".toList
  | _ => "scroll".toList

/-- The action element built by `_generate_action`, with its `UILink` child
referencing one UI element id. -/
def generate_action (actionId : Str) (category : Str) (uiElementCount : Nat)
    (rng : Rng) : XTree :=
  let uiLink : XTree :=
    .node "UILink".toList
      [("element_id".toList, natDigits (action_ui_ref uiElementCount rng)),
       ("interaction_type".toList, interactionChoice (rng 1))] [] []
  let params : XTree :=
    if lowerStr category = "youtube".toList then
      .node "Parameters".toList [] []
        [.node "Parameter".toList
           [("name".toList, "video_quality".toList), ("value".toList, "1080p".toList)] [] [],
         .node "Parameter".toList
           [("name".toList, "autoplay".toList), ("value".toList, triviallyTrue)] [] []]
    else if lowerStr category = "proxy".toList then
      .node "Parameters".toList [] []
        [.node "Parameter".toList
           [("name".toList, "rotation_interval".toList), ("value".toList, "300".toList)] [] [],
         .node "Parameter".toList
           [("name".toList, "retry_count".toList), ("value".toList, "3".toList)] [] []]
    else
      .node "Parameters".toList [] []
        [.node "Parameter".toList
           [("name".toList, "timeout".toList),
            ("value".toList, natDigits (randint 5000 30000 (rng 2)))] [] []]
  .node "Action".toList
    [("id".toList, actionId), ("type".toList, category),
     ("enabled".toList, triviallyTrue), ("version".toList, versionValue)] []
    [uiLink, params]

/-! Embedding of `BAS29_3_1_EnterpriseGenerator.generate_macro`
(source lines 273-321). -/
/-- Statistics dictionary `self.stats` (the counter and finding fields). -/
structure GenStats where
  ui_elements_created : Nat
  macros_created : Nat
  actions_created : Nat
  blocks_created : Nat
  modules_created : Nat
  grammar_corrections_applied : Nat
  validation_errors : List Str
deriving DecidableEq

/-- Abbreviated stand-in for the cosmetic BAS DSL script text produced by
`_generate_bas_script`; no claim depends on the script characters, only on
the fact that a `Script` child carrying some text is present. -/
def bas_script_text (macroId : Nat) (category : Str) : Str :=
  "section(1,1,1,0,function".toList ++ natDigits macroId ++ category

/-- Number of actions drawn per macro: `random.randint(30, 50)`. -/
def macro_action_count (rng : Rng) : Nat := randint 30 50 (rng 0)

/-- The `Actions` subtree of one macro: `action_count` fresh actions, each
with its own draws from the random source. -/
def macro_actions (macroId : Nat) (category : Str) (uiElementCount : Nat)
    (rng : Rng) : XTree :=
  .node "Actions".toList [] []
    ((List.range (macro_action_count rng)).map (fun aid =>
      generate_action (natDigits macroId ++ "_".toList ++ natDigits aid) category
        uiElementCount (fun k => rng (3 * aid + k + 1))))

/-- The macro element built by `generate_macro`, together with the updated
statistics: `macros_created` is incremented by one and `actions_created` by
the drawn action count. -/
def generate_macro_node (macroId : Nat) (category : Str) (uiElementCount : Nat)
    (rng : Rng) (stats : GenStats) : XTree × GenStats :=
  let macroName := category ++ "_Macro_".toList ++ natDigits macroId
  let metadata : XTree :=
    .node "Metadata".toList [] []
      [.node "Description".toList [] ("Enterprise automation macro".toList) [],
       .node "Author".toList [] ("HDGRACE Enterprise System".toList) [],
       .node "Created".toList [] [] []]
  let script : XTree := .node "Script".toList [] (bas_script_text macroId category) []
  let tree : XTree :=
    .node "Macro".toList
      [("id".toList, natDigits macroId), ("name".toList, macroName),
       ("enabled".toList, triviallyTrue), ("active".toList, triviallyTrue),
       ("version".toList, versionValue), ("category".toList, category)] []
      [metadata, script, macro_actions macroId category uiElementCount rng]
  (tree,
   { stats with
      macros_created := stats.macros_created + 1,
      actions_created := stats.actions_created + macro_action_count rng })

/-! Embedding of the quota-partitioning computation shared by
`_generate_ui_elements_batch` (lines 899-905), `_generate_macros_batch`
(lines 929-935) and `generate_modules` (lines 635-641): with `N` ordered
categories, `base = total // N`, `remainder = total % N`, and category `i`
receives `base + 1` when `i < remainder`, else `base`. -/
/-- Per-category counts, in category order. -/
def partition_counts (total n : Nat) : List Nat :=
  (List.range n).map (fun i => total / n + if i < total % n then 1 else 0)

/-- Sequential id assignment of the batch loops: ids are handed out from
`start` upward, each category consuming its count. -/
def assignIds : List Nat → Nat → List Nat
  | [], _ => []
  | c :: cs, start => List.range' start c ++ assignIds cs (start + c)

/-- The UI element ids assigned by `_generate_ui_elements_batch`: the
element id counter starts at `0` and is incremented after each element, over
the 10 categories of the batch. -/
def ui_batch_ids (uiElementCount : Nat) : List Nat :=
  assignIds (partition_counts uiElementCount 10) 0

/-! Embedding of `_pad_to_target_size` (source lines 1064-1112). -/
def closingTag : Str := "</BrowserAutomationStudioProject>".toList

def chunkPre : Str := "<!-- PADDING_CHUNK_".toList

def chunkMid : Str := ": ".toList

def chunkEnd : Str := " -->\n".toList

/-- One padding chunk `f"<!-- PADDING_CHUNK_{i}: {padding_data} -->\n"` with
`padding_data = "A" * (8192 - 20)`. -/
def paddingChunk (i : Nat) : Str :=
  chunkPre ++ natDigits i ++ chunkMid ++ List.replicate 8172 'A' ++ chunkEnd

/-- The joined padding chunks for `chunks_needed = padding_needed // 8192`
(note the floor division in the source). -/
def paddingContent (q : Nat) : Str := ((List.range q).map paddingChunk).flatten

/-- The text transformation of `_pad_to_target_size`: when the current size
is below the target, `padding_needed // 8192` comment chunks are inserted in
front of (every occurrence of) the closing root tag via `str.replace`;
otherwise the text is unchanged. -/
def pad_to_target_size (content : Str) (targetSize : Nat) : Str :=
  if content.length < targetSize then
    let chunksNeeded := (targetSize - content.length) / 8192
    if containsSub closingTag content then
      replaceAll closingTag (paddingContent chunksNeeded ++ closingTag) content
    else content
  else content

/-! Embedding of `validate_xml_output` (source lines 1017-1062). -/
def rootMarker : Str := "<BrowserAutomationStudioProject".toList

def engineMarker : Str := "<EngineVersion>29.3.1</EngineVersion>".toList

def structureMarker : Str := "<StructureVersion>3.1</StructureVersion>".toList

def sizeFinding : Str := "File size is below the minimum requirement".toList

def rootFinding : Str := "Missing BrowserAutomationStudioProject root element".toList

def engineFinding : Str := "Incorrect or missing EngineVersion".toList

def structureFinding : Str := "Incorrect or missing StructureVersion".toList

/-- Appends one validation finding to the statistics. -/
def addFinding (stats : GenStats) (msg : Str) : GenStats :=
  { stats with validation_errors := stats.validation_errors ++ [msg] }

/-- The size check of `validate_xml_output`: at production scale
(`ui_element_count >= 3000`) the threshold is 700 MiB; below production
scale the threshold is 0.1 MB, i.e. the byte size fails the float comparison
`size / (1024*1024) < 0.1` exactly when `size <= 104857`. -/
def sizeCheckFails (uiElementCount fileSizeBytes : Nat) : Bool :=
  if 3000 ≤ uiElementCount then
    decide (fileSizeBytes < 700 * 1024 * 1024)
  else
    decide (fileSizeBytes ≤ 104857)

/-- The validator: checks run in order (size, root marker, engine-version
marker, structure-version marker); each failed check that runs appends a
finding; marker checks inspect only the first 1000 characters, mirroring
`f.read(1000)`. -/
def validate_xml_output (uiElementCount fileSizeBytes : Nat) (content : Str)
    (stats : GenStats) : Bool × GenStats :=
  let sizeFail := sizeCheckFails uiElementCount fileSizeBytes
  let stats₁ := if sizeFail then addFinding stats sizeFinding else stats
  if sizeFail && decide (3000 ≤ uiElementCount) then
    (false, stats₁)
  else
    let headPart := content.take 1000
    if !containsSub rootMarker headPart then
      (false, addFinding stats₁ rootFinding)
    else if !containsSub engineMarker headPart then
      (false, addFinding stats₁ engineFinding)
    else if !containsSub structureMarker headPart then
      (false, addFinding stats₁ structureFinding)
    else
      (true, stats₁)

/-! Embedding of the parallel-generation result collection of
`_generate_content_parallel` (source lines 860-886) and the merge loop of
`generate_xml` (source lines 1161-1164). -/
def completedLog : Str := "Completed generation of ".toList

def errorLog : Str := "Error in generation of ".toList

/-- Result collection over `as_completed(future_to_task)`: the argument list
is the sequence of task results in completion order.  A successful task
appends its `(name, subtree)` pair to `content_elements` and logs a
completion message; a failed task only logs an error message — the
statistics (including `validation_errors`) are not touched by the handler. -/
def process_futures (stats : GenStats) (results : List (Str × Except Str XTree)) :
    List (Str × XTree) × GenStats × List Str :=
  results.foldl
    (fun acc nr =>
      match nr.2 with
      | .ok t => (acc.1 ++ [(nr.1, t)], acc.2.1, acc.2.2 ++ [completedLog ++ nr.1])
      | .error e => (acc.1, acc.2.1, acc.2.2 ++ [errorLog ++ nr.1 ++ e]))
    ([], stats, [])

/-- The merge loop of `generate_xml`: each collected subtree is appended to
the root element in the order of the collected list (which is the task
completion order). -/
def merge_content (root : XTree) (results : List (Str × XTree)) : XTree :=
  results.foldl (fun acc nr => acc.appendChild nr.2) root

/-! An interleaving model of the statistics counters (claim C9).  In the
source every `stats` counter has exactly one writer task:
`ui_elements_created` is incremented only inside `generate_ui_element`,
whose only caller is `_generate_ui_elements_batch`, the body of the
`ui_elements` task; `macros_created` and `actions_created` only inside
`generate_macro`, whose only caller is `_generate_macros_batch`, the
`macros` task; `blocks_created` only by `generate_core_blocks` and
`modules_created` only by `generate_modules`, each submitted as a single
task; and `grammar_corrections_applied` only by
`apply_grammar_corrections`, which `generate_xml` calls on the main thread
after the executor `with` block has joined every worker (its only other
caller, `_write_xml_chunk`, is itself never invoked).  An unsynchronized
`self.stats[key] += 1` is still a read of the counter followed by a write
of the read value plus one, and CPython may switch threads between the two
bytecode steps — but because each counter is private to one task, a
schedule interleaves the tasks only across DIFFERENT counters, never two
increments of the same one. -/
/-- One half of an unsynchronized `+= 1`. -/
inductive CtrOp where
  | read
  | write
deriving DecidableEq

/-- A section task together with the one statistics counter that it alone
increments: the counter value, the task's local register (the value loaded
by the last read) and its remaining operations. -/
structure TaskSt where
  counter : Nat
  reg : Nat
  prog : List CtrOp
deriving DecidableEq

/-- The operation sequence of a task that performs `n` increments. -/
def incProgram : Nat → List CtrOp
  | 0 => []
  | n + 1 => .read :: .write :: incProgram n

/-- Executes the next operation of a task against its own counter. -/
def stepOwn (t : TaskSt) : TaskSt :=
  match t.prog with
  | [] => t
  | .read :: rest => ⟨t.counter, t.counter, rest⟩
  | .write :: rest => ⟨t.reg + 1, t.reg, rest⟩

/-- Runs one task for `k` scheduler slots. -/
def execTask : Nat → TaskSt → TaskSt
  | 0, t => t
  | k + 1, t => execTask k (stepOwn t)

/-- Runs a schedule (a list of task indices): at each slot the scheduled
task executes its next operation; the tasks interleave arbitrarily. -/
def runSchedOwn : List Nat → List TaskSt → List TaskSt
  | [], ts => ts
  | i :: sched, ts =>
    match ts[i]? with
    | none => runSchedOwn sched ts
    | some t => runSchedOwn sched (ts.set i (stepOwn t))

/-- The initial task pool for a list of per-task increment counts. -/
def mkTasks (incs : List Nat) : List TaskSt :=
  incs.map (fun n => ⟨0, 0, incProgram n⟩)

def sampleRoot : XTree := .node "BrowserAutomationStudioProject".toList [] [] []

def sampleUiSection : XTree := .node "UIElements".toList [] [] []

def sampleMacroSection : XTree := .node "Macros".toList [] [] []

/-- First completion order of the two section tasks. -/
def completionOrderA : List (Str × XTree) :=
  [("ui_elements".toList, sampleUiSection), ("macros".toList, sampleMacroSection)]

/-! Claim C5: failed section tasks. -/
/-- The pair retained by the collection loop for a successful task. -/
def okPair (nr : Str × Except Str XTree) : Option (Str × XTree) :=
  match nr.2 with
  | .ok t => some (nr.1, t)
  | .error _ => none

/-- The log line produced by the collection loop for one task result. -/
def logOf (nr : Str × Except Str XTree) : Str :=
  match nr.2 with
  | .ok _ => completedLog ++ nr.1
  | .error e => errorLog ++ nr.1 ++ e

def statsZero : GenStats := ⟨0, 0, 0, 0, 0, 0, []⟩

/-- One concrete completion sequence in which the macros task failed. -/
def mixedResults : List (Str × Except Str XTree) :=
  [("ui_elements".toList, .ok sampleUiSection),
   ("macros".toList, .error "boom".toList)]

def sampleBadContent : Str := "hello".toList

def commentOpenTag : Str := "<!--".toList

def commentCloseTag : Str := "-->".toList

/-- The inner text of one padding chunk, between the comment delimiters. -/
def chunkInner (i : Nat) : Str :=
  " PADDING_CHUNK_".toList ++ natDigits i ++ chunkMid ++ List.replicate 8172 'A' ++ [' ']

/-- A concrete document body: root element opening plus both version
markers. -/
def padBody : Str :=
  ("<BrowserAutomationStudioProject><EngineVersion>29.3.1</EngineVersion>"
    ++ "<StructureVersion>3.1</StructureVersion>").toList

/-! Claim C4: idempotence of the two correction engines. -/
def correctionInput : Str := "state=\"enable\"".toList

/-- Side condition on a pattern and a replacement text: the pattern (with
its lookahead) matches nowhere strictly inside the replacement. -/
def CCond (p rep : Str) : Prop :=
  ∀ i, i < rep.length → i + p.length < rep.length → ¬ MatchF p (rep.drop i)

instance (p rep : Str) : Decidable (CCond p rep) := by
  unfold CCond; infer_instance

/-- Side condition relating a pattern `p` to a rewrite `q -> rq`: whenever a
proper nonempty suffix of `p` coincides with a prefix of the replacement
`rq`, that prefix is also a prefix of the original pattern `q` of the same
length. -/
def DCond (p q rq : Str) : Prop :=
  ∀ L, L < p.length → 1 ≤ L → L ≤ rq.length →
    p.drop (p.length - L) = rq.take L → (L ≤ q.length ∧ rq.take L = q.take L)

instance (p q rq : Str) : Decidable (DCond p q rq) := by
  unfold DCond; infer_instance

/-! Fuel-irrelevance and unfolding equations for the scanners. -/
theorem substFuel_irrel (pat rep : Str) (hp : pat ≠ []) :
    ∀ (f₁ f₂ : Nat) (s : Str), s.length ≤ f₁ → s.length ≤ f₂ →
      substFuel pat rep f₁ s = substFuel pat rep f₂ s := by
  intro f₁
  induction f₁ with
  | zero =>
    intro f₂ s h₁ _
    have : s = [] := List.eq_nil_of_length_eq_zero (Nat.le_zero.mp h₁)
    subst this
    cases f₂ <;> rfl
  | succ f ih =>
    intro f₂ s h₁ h₂
    cases s with
    | nil => cases f₂ <;> rfl
    | cons c t =>
      have hplen : 1 ≤ pat.length := by
        cases pat with
        | nil => exact absurd rfl hp
        | cons a b => simp
      cases f₂ with
      | zero => simp at h₂
      | succ g =>
        simp only [substFuel]
        by_cases hm : matchFront pat (c :: t)
        · rw [if_pos hm, if_pos hm]
          have hlen : ((c :: t).drop pat.length).length ≤ f := by
            simp only [List.length_drop, List.length_cons]
            have := Nat.succ_le_succ_iff.mp h₁
            omega
          have hlen' : ((c :: t).drop pat.length).length ≤ g := by
            simp only [List.length_drop, List.length_cons]
            have := Nat.succ_le_succ_iff.mp h₂
            omega
          rw [ih g _ hlen hlen']
        · rw [if_neg hm, if_neg hm]
          have hlen : t.length ≤ f := Nat.succ_le_succ_iff.mp h₁
          have hlen' : t.length ≤ g := Nat.succ_le_succ_iff.mp h₂
          rw [ih g t hlen hlen']

theorem substNL_nil (pat rep : Str) : substNL pat rep [] = [] := rfl

theorem substNL_cons (pat rep : Str) (hp : pat ≠ []) (c : Char) (s : Str) :
    substNL pat rep (c :: s) =
      if matchFront pat (c :: s) then
        rep ++ substNL pat rep ((c :: s).drop pat.length)
      else
        c :: substNL pat rep s := by
  show substFuel pat rep (s.length + 1) (c :: s) = _
  simp only [substFuel]
  by_cases hm : matchFront pat (c :: s)
  · rw [if_pos hm, if_pos hm]
    have hplen : 1 ≤ pat.length := by
      cases pat with
      | nil => exact absurd rfl hp
      | cons a b => simp
    have : ((c :: s).drop pat.length).length ≤ s.length := by
      simp only [List.length_drop, List.length_cons]; omega
    rw [substFuel_irrel pat rep hp s.length ((c :: s).drop pat.length).length _ this le_rfl]
    rfl
  · rw [if_neg hm, if_neg hm]
    rfl

theorem replFuel_irrel (pat rep : Str) (hp : pat ≠ []) :
    ∀ (f₁ f₂ : Nat) (s : Str), s.length ≤ f₁ → s.length ≤ f₂ →
      replFuel pat rep f₁ s = replFuel pat rep f₂ s := by
  intro f₁
  induction f₁ with
  | zero =>
    intro f₂ s h₁ _
    have : s = [] := List.eq_nil_of_length_eq_zero (Nat.le_zero.mp h₁)
    subst this
    cases f₂ <;> rfl
  | succ f ih =>
    intro f₂ s h₁ h₂
    cases s with
    | nil => cases f₂ <;> rfl
    | cons c t =>
      have hplen : 1 ≤ pat.length := by
        cases pat with
        | nil => exact absurd rfl hp
        | cons a b => simp
      cases f₂ with
      | zero => simp at h₂
      | succ g =>
        simp only [replFuel]
        by_cases hm : (c :: t).take pat.length = pat
        · rw [if_pos hm, if_pos hm]
          have hlen : ((c :: t).drop pat.length).length ≤ f := by
            simp only [List.length_drop, List.length_cons]
            have := Nat.succ_le_succ_iff.mp h₁
            omega
          have hlen' : ((c :: t).drop pat.length).length ≤ g := by
            simp only [List.length_drop, List.length_cons]
            have := Nat.succ_le_succ_iff.mp h₂
            omega
          rw [ih g _ hlen hlen']
        · rw [if_neg hm, if_neg hm]
          have hlen : t.length ≤ f := Nat.succ_le_succ_iff.mp h₁
          have hlen' : t.length ≤ g := Nat.succ_le_succ_iff.mp h₂
          rw [ih g t hlen hlen']

theorem replaceAll_nil (pat rep : Str) : replaceAll pat rep [] = [] := rfl

theorem replaceAll_cons (pat rep : Str) (hp : pat ≠ []) (c : Char) (s : Str) :
    replaceAll pat rep (c :: s) =
      if (c :: s).take pat.length = pat then
        rep ++ replaceAll pat rep ((c :: s).drop pat.length)
      else
        c :: replaceAll pat rep s := by
  show replFuel pat rep (s.length + 1) (c :: s) = _
  simp only [replFuel]
  by_cases hm : (c :: s).take pat.length = pat
  · rw [if_pos hm, if_pos hm]
    have hplen : 1 ≤ pat.length := by
      cases pat with
      | nil => exact absurd rfl hp
      | cons a b => simp
    have : ((c :: s).drop pat.length).length ≤ s.length := by
      simp only [List.length_drop, List.length_cons]; omega
    rw [replFuel_irrel pat rep hp s.length ((c :: s).drop pat.length).length _ this le_rfl]
    rfl
  · rw [if_neg hm, if_neg hm]
    rfl

theorem matchFront_eq_true_iff (pat s : Str) : matchFront pat s = true ↔ MatchF pat s := by
  simp [matchFront]

theorem matchFront_eq_false_iff (pat s : Str) : matchFront pat s = false ↔ ¬ MatchF pat s := by
  simp [matchFront]

theorem hasMatch_eq_false_iff (pat : Str) :
    ∀ s : Str, hasMatch pat s = false ↔ ∀ i, ¬ MatchF pat (s.drop i) := by
  intro s
  induction s with
  | nil =>
    simp only [hasMatch, List.drop_nil, matchFront_eq_false_iff]
    constructor
    · intro h i
      exact h
    · intro h
      exact h 0
  | cons c t ih =>
    simp only [hasMatch, Bool.or_eq_false_iff, matchFront_eq_false_iff, ih]
    constructor
    · rintro ⟨h0, hrest⟩ i
      cases i with
      | zero => simpa using h0
      | succ j => simpa [List.drop_succ_cons] using hrest j
    · intro h
      refine ⟨by simpa using h 0, fun j => by simpa [List.drop_succ_cons] using h (j + 1)⟩

theorem hasMatch_drop (pat s : Str) (h : hasMatch pat s = false) (k : Nat) :
    hasMatch pat (s.drop k) = false := by
  rw [hasMatch_eq_false_iff] at h ⊢
  intro i
  rw [List.drop_drop, Nat.add_comm]
  exact h (i + k)

theorem not_MatchF_of_hasMatch_false (pat s : Str) (h : hasMatch pat s = false) :
    ¬ MatchF pat s := by
  have := (hasMatch_eq_false_iff pat s).mp h 0
  simpa using this

theorem substNL_id_of_noMatch (pat rep : Str) (hp : pat ≠ []) :
    ∀ s : Str, hasMatch pat s = false → substNL pat rep s = s := by
  intro s
  induction s with
  | nil => intro _; rfl
  | cons c t ih =>
    intro h
    have h0 : ¬ MatchF pat (c :: t) := not_MatchF_of_hasMatch_false pat _ h
    have ht : hasMatch pat t = false := by
      have := (hasMatch_eq_false_iff pat (c :: t)).mp h
      rw [hasMatch_eq_false_iff]
      intro i
      simpa [List.drop_succ_cons] using this (i + 1)
    rw [substNL_cons pat rep hp c t, if_neg (by simpa [matchFront_eq_true_iff] using h0)]
    rw [ih ht]

/-! Claim C2: the partitioning computation. -/
theorem partition_counts_length (total n : Nat) : (partition_counts total n).length = n := by
  simp [partition_counts]

theorem sum_base_ite (q r : Nat) :
    ∀ n, ((List.range n).map (fun i => q + if i < r then 1 else 0)).sum = n * q + min r n := by
  intro n
  induction n with
  | zero => simp
  | succ m ih =>
    rw [List.range_succ, List.map_append, List.sum_append, ih]
    by_cases hm : m < r
    · have h1 : min r m = m := by omega
      have h2 : min r (m + 1) = m + 1 := by omega
      simp only [hm, if_pos, List.map_cons, List.map_nil, List.sum_cons, List.sum_nil,
        h1, h2, Nat.succ_mul]
      omega
    · have h1 : min r m = r := by omega
      have h2 : min r (m + 1) = r := by omega
      simp only [hm, if_neg, if_false, List.map_cons, List.map_nil, List.sum_cons,
        List.sum_nil, h1, h2, Nat.succ_mul]
      omega

theorem partition_counts_sum (total n : Nat) (hn : 0 < n) :
    (partition_counts total n).sum = total := by
  unfold partition_counts
  rw [sum_base_ite]
  have hr : total % n < n := Nat.mod_lt _ hn
  have hmin : min (total % n) n = total % n := by omega
  rw [hmin]
  exact Nat.div_add_mod total n

theorem partition_counts_get (total n : Nat) (i : Nat)
    (hi : i < (partition_counts total n).length) :
    (partition_counts total n).get ⟨i, hi⟩ =
      total / n + if i < total % n then 1 else 0 := by
  simp [partition_counts, List.get_eq_getElem]

/-- Claim C2: for every `total` and every positive category count `n`, the
partitioning gives `base = total / n` to every category plus one extra unit
to exactly the first `total % n` categories, the counts sum to exactly
`total`, any two counts differ by at most 1, and `total = 3065` over 10
categories yields five counts of 307 followed by five of 306. -/
theorem partition_distributes_exactly (total n : Nat) (hn : 0 < n) :
    (partition_counts total n).length = n ∧
    (partition_counts total n).sum = total ∧
    (∀ i j (hi : i < (partition_counts total n).length)
        (hj : j < (partition_counts total n).length),
      (partition_counts total n).get ⟨i, hi⟩ ≤ (partition_counts total n).get ⟨j, hj⟩ + 1) ∧
    partition_counts 3065 10 = [307, 307, 307, 307, 307, 306, 306, 306, 306, 306] := by
  refine ⟨partition_counts_length total n, partition_counts_sum total n hn, ?_, by decide⟩
  intro i j hi hj
  rw [partition_counts_get, partition_counts_get]
  by_cases h1 : i < total % n <;> by_cases h2 : j < total % n <;>
    simp only [h1, h2, if_true, if_false] <;> omega

/-- Witness for C2 at the concrete production quota. -/
theorem partition_distributes_exactly_witness :
    0 < 10 ∧ (partition_counts 3065 10).sum = 3065 ∧
      partition_counts 3065 10 = [307, 307, 307, 307, 307, 306, 306, 306, 306, 306] :=
  ⟨by decide, (partition_distributes_exactly 3065 10 (by decide)).2.1,
    (partition_distributes_exactly 3065 10 (by decide)).2.2.2⟩

/-! Claim C8: triple visibility enforcement. -/
/-- Claim C8: every UI element produced by `generate_ui_element` carries the
three visibility attributes `visible`, `data-visible` and `aria-visible`,
each set to `"true"`, for every element id, category and random draw (the
randomness only affects position, sizing and the optional button child). -/
theorem ui_element_triple_visibility (elementId : Nat) (category : Str) (rng : Rng) :
    getAttr ("visible".toList) (generate_ui_element elementId category rng).attrsOf
        = some triviallyTrue ∧
    getAttr ("data-visible".toList) (generate_ui_element elementId category rng).attrsOf
        = some triviallyTrue ∧
    getAttr ("aria-visible".toList) (generate_ui_element elementId category rng).attrsOf
        = some triviallyTrue := by
  refine ⟨rfl, rfl, rfl⟩

/-! Claim C10: actions per macro. -/
theorem macro_action_count_bounds (rng : Rng) :
    30 ≤ macro_action_count rng ∧ macro_action_count rng ≤ 50 := by
  unfold macro_action_count randint
  have : rng 0 % 21 < 21 := Nat.mod_lt _ (by omega)
  omega

theorem macro_actions_length (macroId : Nat) (category : Str) (uiCount : Nat) (rng : Rng) :
    (macro_actions macroId category uiCount rng).children.length = macro_action_count rng := by
  simp [macro_actions, XTree.children]

theorem generate_macro_node_stats (macroId : Nat) (category : Str) (uiCount : Nat)
    (rng : Rng) (stats : GenStats) :
    ((generate_macro_node macroId category uiCount rng stats).2).actions_created
        = stats.actions_created + macro_action_count rng ∧
    ((generate_macro_node macroId category uiCount rng stats).2).macros_created
        = stats.macros_created + 1 := by
  constructor <;> rfl

/-- Claim C10: every macro draws a fresh action count in `[30, 50]`, its
`Actions` subtree holds exactly that many actions, `actions_created` grows by
exactly that count, and a full run of 3065 macros yields a total action
count between `91950` and `153250`. -/
theorem macro_actions_in_range :
    (∀ (macroId : Nat) (category : Str) (uiCount : Nat) (rng : Rng) (stats : GenStats),
      30 ≤ macro_action_count rng ∧ macro_action_count rng ≤ 50 ∧
      (macro_actions macroId category uiCount rng).children.length = macro_action_count rng ∧
      ((generate_macro_node macroId category uiCount rng stats).2).actions_created
        = stats.actions_created + macro_action_count rng) ∧
    (∀ draws : List Rng, draws.length = 3065 →
      91950 ≤ (draws.map (fun r => macro_action_count r)).sum ∧
      (draws.map (fun r => macro_action_count r)).sum ≤ 153250) := by
  constructor
  · intro macroId category uiCount rng stats
    exact ⟨(macro_action_count_bounds rng).1, (macro_action_count_bounds rng).2,
      macro_actions_length macroId category uiCount rng,
      (generate_macro_node_stats macroId category uiCount rng stats).1⟩
  · intro draws hlen
    have hmaplen : (draws.map (fun r => macro_action_count r)).length = 3065 := by
      simp [hlen]
    constructor
    · have := List.card_nsmul_le_sum (l := draws.map (fun r => macro_action_count r))
        (n := 30) (fun x hx => by
          obtain ⟨r, _, hr⟩ := List.mem_map.mp hx
          exact hr ▸ (macro_action_count_bounds r).1)
      simpa [hmaplen] using this
    · have := List.sum_le_card_nsmul (l := draws.map (fun r => macro_action_count r))
        (n := 50) (fun x hx => by
          obtain ⟨r, _, hr⟩ := List.mem_map.mp hx
          exact hr ▸ (macro_action_count_bounds r).2)
      simpa [hmaplen] using this

/-- Witness for C10 at a concrete run (3065 macros, constant-zero raw
draws, so every macro draws 30 actions). -/
theorem macro_actions_in_range_witness :
    (List.replicate 3065 (fun _ => 0 : Rng)).length = 3065 ∧
    91950 ≤ ((List.replicate 3065 (fun _ => 0 : Rng)).map
      (fun r => macro_action_count r)).sum := by
  refine ⟨List.length_replicate 3065 _,
    (macro_actions_in_range.2 _ (List.length_replicate 3065 _)).1⟩

/-! Claim C6: action references versus assigned UI element ids. -/
theorem assignIds_eq_range' :
    ∀ (counts : List Nat) (start : Nat), assignIds counts start = List.range' start counts.sum := by
  intro counts
  induction counts with
  | nil => intro start; simp [assignIds]
  | cons c cs ih =>
    intro start
    rw [assignIds, ih (start + c), List.sum_cons]
    have := List.range'_append start c cs.sum 1
    simp only [Nat.one_mul] at this
    rw [this, Nat.add_comm cs.sum c]

theorem ui_batch_ids_eq_range (uiCount : Nat) :
    ui_batch_ids uiCount = List.range uiCount := by
  rw [ui_batch_ids, assignIds_eq_range', partition_counts_sum uiCount 10 (by omega)]
  exact (List.range_eq_range' uiCount).symm

/-- Claim C6 (code-bug record): every UI element reference drawn by
`_generate_action` lies in `[1, ui_element_count]`, but the batch generator
assigns the ids `0 … ui_element_count - 1`; in particular the draw that
returns `3065` (raw draw 3064) is a possible reference that resolves to no
assigned id, and the assigned id `0` is never referenced. -/
theorem action_ref_off_by_one :
    (∀ rng : Rng, 1 ≤ action_ui_ref 3065 rng ∧ action_ui_ref 3065 rng ≤ 3065) ∧
    action_ui_ref 3065 (fun _ => 3064) = 3065 ∧
    ui_batch_ids 3065 = List.range 3065 ∧
    3065 ∉ ui_batch_ids 3065 ∧
    (∀ rng : Rng, action_ui_ref 3065 rng ≠ 0) := by
  refine ⟨?_, by decide, ui_batch_ids_eq_range 3065, ?_, ?_⟩
  · intro rng
    unfold action_ui_ref randint
    have : rng 0 % (3065 + 1 - 1) < 3065 := Nat.mod_lt _ (by omega)
    omega
  · rw [ui_batch_ids_eq_range]
    simp
  · intro rng
    unfold action_ui_ref randint
    omega

/-! Claim C3: merge order. -/
theorem merge_content_children :
    ∀ (results : List (Str × XTree)) (root : XTree),
      (merge_content root results).children = root.children ++ results.map Prod.snd := by
  intro results
  induction results with
  | nil => intro root; simp [merge_content]
  | cons r rest ih =>
    intro root
    have hstep : merge_content root (r :: rest) = merge_content (root.appendChild r.2) rest := rfl
    rw [hstep, ih]
    cases root with
    | node t a x c => simp [XTree.appendChild, XTree.children]

/-- Claim C3 (amended): the merge loop appends the collected subtrees to the
root in the order of the collected list, which is the task completion order;
consequently the section order of the merged document equals the completion
order, and two runs produce identical merged documents only when their
completion orders deliver the same subtree sequence. -/
theorem merge_follows_completion_order (root : XTree) (results : List (Str × XTree)) :
    (merge_content root results).children = root.children ++ results.map Prod.snd :=
  merge_content_children results root

/-- Counterexample to C3 as stated: the same two section results collected
in the reverse completion order merge to a document that serializes to
different bytes, so the merged output is not byte-identical regardless of
completion order (the merge follows completion order, not a fixed
pre-declared section order). -/
theorem merge_not_completion_invariant :
    completionOrderA.reverse.map Prod.fst ≠ completionOrderA.map Prod.fst ∧
    serializeFuel 3 (merge_content sampleRoot completionOrderA.reverse)
      ≠ serializeFuel 3 (merge_content sampleRoot completionOrderA) := by
  refine ⟨by decide, by decide⟩

theorem process_futures_foldl :
    ∀ (results : List (Str × Except Str XTree)) (acc : List (Str × XTree) × GenStats × List Str),
      results.foldl
        (fun acc nr =>
          match nr.2 with
          | .ok t => (acc.1 ++ [(nr.1, t)], acc.2.1, acc.2.2 ++ [completedLog ++ nr.1])
          | .error e => (acc.1, acc.2.1, acc.2.2 ++ [errorLog ++ nr.1 ++ e]))
        acc
      = (acc.1 ++ results.filterMap okPair, acc.2.1, acc.2.2 ++ results.map logOf) := by
  intro results
  induction results with
  | nil => intro acc; simp
  | cons r rest ih =>
    intro acc
    obtain ⟨n, res⟩ := r
    cases res with
    | ok t =>
      rw [List.foldl_cons, ih]
      simp [okPair, logOf]
    | error e =>
      rw [List.foldl_cons, ih]
      simp [okPair, logOf]

/-- Claim C5 (amended): a failed section task is caught at the collection
boundary and only logged; its section is omitted from the collected content
(the successes are kept, in order), the run continues over the remaining
results, and the statistics — in particular the `validation_errors` finding
list consulted by the validation report — are left untouched, so the
omission is not surfaced as a validation finding. -/
theorem failed_section_omitted_not_reported (stats : GenStats)
    (results : List (Str × Except Str XTree)) :
    (process_futures stats results).1 = results.filterMap okPair ∧
    (process_futures stats results).2.1 = stats ∧
    (process_futures stats results).2.2 = results.map logOf := by
  unfold process_futures
  rw [process_futures_foldl]
  exact ⟨by simp, rfl, by simp⟩

/-- Counterexample to C5 as stated: after collecting a run in which the
`macros` task raised, the macros section is absent from the collected
content, yet the `validation_errors` list is empty — no finding about the
omission reaches the validation report. -/
theorem failed_section_counterexample :
    ((process_futures statsZero mixedResults).1.map Prod.fst) = ["ui_elements".toList] ∧
    (process_futures statsZero mixedResults).2.1.validation_errors = [] := by
  refine ⟨rfl, rfl⟩

/-! Claim C7: the validator. -/
/-- Claim C7 (amended): the validator runs its checks in order and appends a
finding for each failed check that runs, but it returns `False` not only at
production scale: the size check alone fails the run only at production
scale (`ui_element_count >= 3000`), while a missing root marker or a missing
fixed-version marker returns `False` at any scale. -/
theorem validator_failure_characterization (uiCount size : Nat) (content : Str)
    (stats : GenStats) :
    ((validate_xml_output uiCount size content stats).1 = false ↔
      (sizeCheckFails uiCount size = true ∧ 3000 ≤ uiCount) ∨
      containsSub rootMarker (content.take 1000) = false ∨
      containsSub engineMarker (content.take 1000) = false ∨
      containsSub structureMarker (content.take 1000) = false) ∧
    (sizeCheckFails uiCount size = true →
      sizeFinding ∈ (validate_xml_output uiCount size content stats).2.validation_errors) := by
  constructor
  · unfold validate_xml_output
    by_cases hζ : sizeCheckFails uiCount size = true <;>
      by_cases hp : 3000 ≤ uiCount <;>
      by_cases h1 : containsSub rootMarker (content.take 1000) = true <;>
      by_cases h2 : containsSub engineMarker (content.take 1000) = true <;>
      by_cases h3 : containsSub structureMarker (content.take 1000) = true <;>
      simp [hζ, hp, h1, h2, h3]
  · intro hsf
    unfold validate_xml_output
    rw [hsf]
    by_cases hp : 3000 ≤ uiCount <;>
      by_cases h1 : containsSub rootMarker (content.take 1000) = true <;>
      by_cases h2 : containsSub engineMarker (content.take 1000) = true <;>
      by_cases h3 : containsSub structureMarker (content.take 1000) = true <;>
      simp [hp, h1, h2, h3, addFinding]

/-! Claim C9: the per-task statistics counters under interleaving. -/
theorem stepOwn_of_prog_nil (t : TaskSt) (h : t.prog = []) : stepOwn t = t := by
  unfold stepOwn
  rw [h]

theorem execTask_of_prog_nil :
    ∀ (k : Nat) (t : TaskSt), t.prog = [] → execTask k t = t := by
  intro k
  induction k with
  | zero => intro t _; rfl
  | succ m ih =>
    intro t h
    show execTask m (stepOwn t) = t
    rw [stepOwn_of_prog_nil t h]
    exact ih t h

theorem execTask_succ (k : Nat) (t : TaskSt) :
    execTask (k + 1) t = execTask k (stepOwn t) := rfl

theorem execTask_succ_read (c r : Nat) (rest : List CtrOp) (k : Nat) :
    execTask (k + 1) ⟨c, r, .read :: rest⟩ = execTask k ⟨c, c, rest⟩ := rfl

theorem execTask_succ_write (c r : Nat) (rest : List CtrOp) (k : Nat) :
    execTask (k + 1) ⟨c, r, .write :: rest⟩ = execTask k ⟨r + 1, r, rest⟩ := rfl

theorem execTask_counter :
    ∀ (n k c r : Nat), (execTask k (⟨c, r, incProgram n⟩ : TaskSt)).prog = [] →
      (execTask k (⟨c, r, incProgram n⟩ : TaskSt)).counter = c + n := by
  intro n
  induction n with
  | zero =>
    intro k c r _
    rw [execTask_of_prog_nil k ⟨c, r, incProgram 0⟩ rfl]
    rfl
  | succ m ih =>
    intro k c r hdone
    have hprog : incProgram (m + 1) = .read :: .write :: incProgram m := rfl
    rw [hprog] at hdone ⊢
    rcases k with _ | (_ | k2)
    · simp [execTask] at hdone
    · rw [execTask_succ_read] at hdone
      simp [execTask] at hdone
    · rw [execTask_succ_read, execTask_succ_write] at hdone ⊢
      rw [ih k2 (c + 1) c hdone]
      omega

theorem runSchedOwn_nil (ts : List TaskSt) : runSchedOwn [] ts = ts := rfl

theorem runSchedOwn_cons (i : Nat) (sched : List Nat) (ts : List TaskSt) :
    runSchedOwn (i :: sched) ts =
      match ts[i]? with
      | none => runSchedOwn sched ts
      | some t => runSchedOwn sched (ts.set i (stepOwn t)) := rfl

theorem runSchedOwn_length :
    ∀ (sched : List Nat) (ts : List TaskSt), (runSchedOwn sched ts).length = ts.length := by
  intro sched
  induction sched with
  | nil => intro ts; rfl
  | cons j sched ih =>
    intro ts
    rw [runSchedOwn_cons]
    cases hj : ts[j]? with
    | none => exact ih ts
    | some t =>
      show (runSchedOwn sched (ts.set j (stepOwn t))).length = ts.length
      rw [ih, List.length_set]

theorem runSchedOwn_get :
    ∀ (sched : List Nat) (ts : List TaskSt) (i : Nat) (t : TaskSt), ts[i]? = some t →
      (runSchedOwn sched ts)[i]? = some (execTask (sched.count i) t) := by
  intro sched
  induction sched with
  | nil =>
    intro ts i t h
    simpa [runSchedOwn, execTask] using h
  | cons j sched ih =>
    intro ts i t h
    rw [runSchedOwn_cons]
    cases hj : ts[j]? with
    | none =>
      have hji : i ≠ j := by
        intro he
        rw [he, hj] at h
        exact Option.noConfusion h
      show (runSchedOwn sched ts)[i]? = some (execTask ((j :: sched).count i) t)
      rw [List.count_cons_of_ne hji]
      exact ih ts i t h
    | some u =>
      show (runSchedOwn sched (ts.set j (stepOwn u)))[i]? =
        some (execTask ((j :: sched).count i) t)
      by_cases hji : i = j
      · subst hji
        rw [h] at hj
        injection hj with huv
        subst huv
        have hlt : i < ts.length := by
          rcases List.getElem?_eq_some.mp h with ⟨hlt, _⟩
          exact hlt
        have hset : (ts.set i (stepOwn t))[i]? = some (stepOwn t) :=
          List.getElem?_set_self (by simpa using hlt)
        rw [List.count_cons_self, execTask_succ]
        exact ih (ts.set i (stepOwn t)) i (stepOwn t) hset
      · have hset : (ts.set j (stepOwn u))[i]? = some t := by
          rw [List.getElem?_set_ne (fun he => hji he.symm)]
          exact h
        rw [List.count_cons_of_ne hji]
        exact ih (ts.set j (stepOwn u)) i t hset

theorem mkTasks_get (incs : List Nat) (k : Nat) (hk : k < incs.length) :
    (mkTasks incs)[k]? = some ⟨0, 0, incProgram (incs.get ⟨k, hk⟩)⟩ := by
  unfold mkTasks
  rw [List.getElem?_map]
  rw [List.getElem?_eq_getElem hk]
  rfl

/-- Claim C9: in the source every statistics counter has a single writer
task — `ui_elements_created` is incremented only by the UI-batch task,
`macros_created` and `actions_created` only by the macros task,
`blocks_created` only by the core-blocks task, `modules_created` only by
the modules task, and `grammar_corrections_applied` only on the main thread
after the worker pool has been joined — so two increments of one counter
never interleave in any execution.  Consequently, under EVERY schedule (an
arbitrary interleaving of the tasks), once a task has exhausted its
increment program its counter equals exactly the number of increment events
that task performed: after all tasks complete no update is lost and each
counter is exact. -/
theorem stats_counters_exact (incs sched : List Nat) (i : Nat)
    (hdone : ((runSchedOwn sched (mkTasks incs))[i]?).map TaskSt.prog = some []) :
    ((runSchedOwn sched (mkTasks incs))[i]?).map TaskSt.counter = incs[i]? := by
  have hlen : i < incs.length := by
    by_contra hge
    push_neg at hge
    have hnone : (runSchedOwn sched (mkTasks incs))[i]? = none := by
      rw [List.getElem?_eq_none]
      rw [runSchedOwn_length]
      simpa [mkTasks] using hge
    rw [hnone] at hdone
    exact Option.noConfusion hdone
  have hstart := mkTasks_get incs i hlen
  have hrun := runSchedOwn_get sched (mkTasks incs) i _ hstart
  rw [hrun] at hdone ⊢
  simp only [Option.map_some', Option.some.injEq] at hdone
  rw [Option.map_some']
  have hcnt := execTask_counter (incs.get ⟨i, hlen⟩) (sched.count i) 0 0 hdone
  rw [hcnt, List.getElem?_eq_getElem hlen]
  simp [List.get_eq_getElem]

/-- Witness for C9: two tasks of one increment each under the fully
interleaved schedule 0,1,0,1 — task 0 finishes its program and its counter
is exactly its event count 1: nothing is lost even though the other task
runs between its read and its write. -/
theorem stats_counters_exact_witness :
    ((runSchedOwn [0, 1, 0, 1] (mkTasks [1, 1]))[0]?).map TaskSt.prog = some [] ∧
    ((runSchedOwn [0, 1, 0, 1] (mkTasks [1, 1]))[0]?).map TaskSt.counter = [1, 1][0]? :=
  ⟨by decide, stats_counters_exact [1, 1] [0, 1, 0, 1] 0 (by decide)⟩

/-- Counterexample to C7 as stated: at sub-production scale
(`ui_element_count = 100 < 3000`) with an adequate file size but a missing
root marker, the validator returns `False` — contradicting the claim that it
never returns `False` below production scale. -/
theorem validator_false_at_test_scale :
    ¬ 3000 ≤ 100 ∧
    sizeCheckFails 100 200000 = false ∧
    (validate_xml_output 100 200000 sampleBadContent statsZero).1 = false := by
  refine ⟨by decide, by decide, by decide⟩

/-- Witness for C7 at a concrete input whose size check fails. -/
theorem validator_failure_characterization_witness :
    sizeCheckFails 100 1000 = true ∧
    sizeFinding ∈ (validate_xml_output 100 1000 sampleBadContent statsZero).2.validation_errors :=
  ⟨by decide,
    (validator_failure_characterization 100 1000 sampleBadContent statsZero).2 (by decide)⟩

/-! Claim C1: the size padder. -/
theorem replaceAll_length_ge (pat rep : Str) (hp : pat ≠ [])
    (hlen : pat.length ≤ rep.length) :
    ∀ (n : Nat) (s : Str), s.length ≤ n → s.length ≤ (replaceAll pat rep s).length := by
  intro n
  induction n with
  | zero =>
    intro s h
    have : s = [] := List.eq_nil_of_length_eq_zero (Nat.le_zero.mp h)
    subst this
    simp [replaceAll_nil]
  | succ m ih =>
    intro s h
    cases s with
    | nil => simp [replaceAll_nil]
    | cons c t =>
      rw [replaceAll_cons pat rep hp]
      by_cases hm : (c :: t).take pat.length = pat
      · rw [if_pos hm]
        have hp1 : 1 ≤ pat.length := by
          cases pat with
          | nil => exact absurd rfl hp
          | cons a b => simp
        have hplen : pat.length ≤ t.length + 1 := by
          have := congrArg List.length hm
          simp only [List.length_take, List.length_cons] at this
          omega
        have hrec := ih ((c :: t).drop pat.length) (by
          simp only [List.length_drop, List.length_cons]
          have := Nat.succ_le_succ_iff.mp h
          omega)
        simp only [List.length_drop, List.length_append, List.length_cons] at hrec ⊢
        omega
      · rw [if_neg hm]
        have hrec := ih t (Nat.succ_le_succ_iff.mp h)
        simp only [List.length_cons]
        omega

theorem replaceAll_tail_occurrence (pat rep : Str) (hp : pat ≠ []) :
    ∀ pre : Str, (∀ i, i < pre.length → ((pre ++ pat).drop i).take pat.length ≠ pat) →
      replaceAll pat rep (pre ++ pat) = pre ++ rep := by
  intro pre
  induction pre with
  | nil =>
    intro _
    simp only [List.nil_append]
    obtain ⟨a, t, hpat⟩ := List.exists_cons_of_ne_nil hp
    subst hpat
    rw [replaceAll_cons _ rep hp, if_pos (List.take_length _)]
    rw [List.drop_length, replaceAll_nil, List.append_nil]
  | cons c pre' ih =>
    intro hno
    have h0 : ¬ ((c :: (pre' ++ pat)).take pat.length = pat) := by
      have := hno 0 (by simp)
      simpa using this
    rw [List.cons_append, replaceAll_cons pat rep hp, if_neg h0]
    rw [ih (fun i hi => by
      have := hno (i + 1) (by simpa using Nat.succ_lt_succ hi)
      simpa [List.drop_succ_cons] using this)]
    rfl

theorem containsSub_eq_true_iff (pat : Str) :
    ∀ s : Str, containsSub pat s = true ↔ ∃ i, (s.drop i).take pat.length = pat := by
  intro s
  induction s with
  | nil =>
    simp only [containsSub, decide_eq_true_eq]
    constructor
    · intro h
      exact ⟨0, h⟩
    · rintro ⟨i, hi⟩
      simpa [List.drop_nil] using hi
  | cons c t ih =>
    simp only [containsSub, Bool.or_eq_true, decide_eq_true_eq, ih]
    constructor
    · rintro (h | ⟨i, hi⟩)
      · exact ⟨0, by simpa using h⟩
      · exact ⟨i + 1, by simpa [List.drop_succ_cons] using hi⟩
    · rintro ⟨i, hi⟩
      cases i with
      | zero => exact Or.inl (by simpa using hi)
      | succ j => exact Or.inr ⟨j, by simpa [List.drop_succ_cons] using hi⟩

theorem containsSub_append_left (m pre x : Str) (h : containsSub m pre = true) :
    containsSub m (pre ++ x) = true := by
  rw [containsSub_eq_true_iff] at h ⊢
  obtain ⟨i, hi⟩ := h
  by_cases hip : i ≤ pre.length
  · refine ⟨i, ?_⟩
    have hlen : m.length ≤ pre.length - i := by
      have := congrArg List.length hi
      simp only [List.length_take, List.length_drop] at this
      omega
    rw [List.drop_append_eq_append_drop, List.take_append_eq_append_take]
    have h2 : m.length - (pre.drop i).length = 0 := by
      simp only [List.length_drop]
      omega
    rw [h2, List.take_zero, List.append_nil]
    exact hi
  · push_neg at hip
    have hdrop : pre.drop i = [] := List.drop_eq_nil_of_le (Nat.le_of_lt hip)
    rw [hdrop] at hi
    simp only [List.take_nil] at hi
    have hm : m = [] := by
      have := congrArg List.length hi
      simp at this
      exact List.eq_nil_of_length_eq_zero this.symm
    subst hm
    exact ⟨0, by simp⟩

theorem containsSub_self_append (pat pre : Str) :
    containsSub pat (pre ++ pat) = true := by
  rw [containsSub_eq_true_iff]
  exact ⟨pre.length, by rw [List.drop_left, List.take_length]⟩

theorem natDigitsFuel_ne_nil (f n : Nat) (hf : 1 ≤ f) : natDigitsFuel f n ≠ [] := by
  cases f with
  | zero => omega
  | succ g =>
    unfold natDigitsFuel
    by_cases hn : n < 10
    · rw [if_pos hn]
      simp
    · rw [if_neg hn]
      simp

theorem natDigits_length_pos (n : Nat) : 1 ≤ (natDigits n).length := by
  have := natDigitsFuel_ne_nil (n + 1) n (by omega)
  cases h : natDigits n with
  | nil => exact absurd h this
  | cons a t => simp

theorem digitChar_safe : ∀ d, d < 10 →
    Nat.digitChar d ≠ '-' ∧ Nat.digitChar d ≠ '<' ∧ Nat.digitChar d ≠ '>' := by
  decide

theorem natDigitsFuel_chars :
    ∀ (f n : Nat) (c : Char), c ∈ natDigitsFuel f n →
      c ≠ '-' ∧ c ≠ '<' ∧ c ≠ '>' := by
  intro f
  induction f with
  | zero => intro n c hc; simp [natDigitsFuel] at hc
  | succ g ih =>
    intro n c hc
    unfold natDigitsFuel at hc
    by_cases hn : n < 10
    · rw [if_pos hn] at hc
      simp only [List.mem_singleton] at hc
      exact hc ▸ digitChar_safe n hn
    · rw [if_neg hn] at hc
      rcases List.mem_append.mp hc with hmem | hmem
      · exact ih (n / 10) c hmem
      · simp only [List.mem_singleton] at hmem
        exact hmem ▸ digitChar_safe (n % 10) (Nat.mod_lt _ (by omega))

theorem natDigits_chars (n : Nat) (c : Char) (hc : c ∈ natDigits n) :
    c ≠ '-' ∧ c ≠ '<' ∧ c ≠ '>' :=
  natDigitsFuel_chars (n + 1) n c hc

theorem paddingChunk_decomp (i : Nat) :
    paddingChunk i = commentOpenTag ++ chunkInner i ++ commentCloseTag ++ ['\n'] := by
  unfold paddingChunk chunkInner
  have h1 : chunkPre = commentOpenTag ++ " PADDING_CHUNK_".toList := by decide
  have h2 : chunkEnd = [' '] ++ commentCloseTag ++ ['\n'] := by decide
  rw [h1, h2]
  simp only [List.append_assoc]

theorem chunkInner_chars (i : Nat) (c : Char) (hc : c ∈ chunkInner i) :
    c ≠ '-' ∧ c ≠ '<' ∧ c ≠ '>' := by
  unfold chunkInner at hc
  have hfixed : ∀ d ∈ " PADDING_CHUNK_".toList, d ≠ '-' ∧ d ≠ '<' ∧ d ≠ '>' := by decide
  have hmid : ∀ d ∈ chunkMid, d ≠ '-' ∧ d ≠ '<' ∧ d ≠ '>' := by decide
  simp only [List.append_assoc, List.mem_append] at hc
  rcases hc with h | h | h | h | h
  · exact hfixed c h
  · exact natDigits_chars i c h
  · exact hmid c h
  · have := List.eq_of_mem_replicate h
    subst this
    refine ⟨by decide, by decide, by decide⟩
  · simp only [List.mem_singleton] at h
    subst h
    refine ⟨by decide, by decide, by decide⟩

theorem paddingChunk_length (i : Nat) :
    (paddingChunk i).length = 8198 + (natDigits i).length := by
  unfold paddingChunk
  have h1 : chunkPre.length = 19 := by decide
  have h2 : chunkMid.length = 2 := by decide
  have h3 : chunkEnd.length = 5 := by decide
  simp only [List.length_append, h1, h2, h3, List.length_replicate]
  omega

theorem paddingContent_length_ge (q : Nat) : 8192 * q ≤ (paddingContent q).length := by
  induction q with
  | zero => simp [paddingContent]
  | succ m ih =>
    unfold paddingContent at ih ⊢
    rw [List.range_succ, List.map_append, List.flatten_append]
    simp only [List.map_cons, List.map_nil, List.flatten_cons, List.flatten_nil,
      List.length_append, List.append_nil]
    have hchunk := paddingChunk_length m
    have hdig := natDigits_length_pos m
    have : 8192 * (m + 1) = 8192 * m + 8192 := by ring
    omega

theorem closingTag_ne_nil : closingTag ≠ [] := by decide

theorem closingTag_length : closingTag.length = 33 := by decide

/-- Claim C1 (amended): whenever the document text is a body followed by the
single closing root tag (the closing tag occurs nowhere in the body), the
padder inserts `(target - size) / 8192` filler chunks immediately before the
closing tag, each chunk is an inert comment block (`<!-- … -->` with an
interior free of `-`, `<` and `>`), the body — and hence every marker it
contains, including the root and version markers — is preserved unchanged,
and the final length falls short of the target by strictly less than one
8192-byte block (the floor division can leave up to 8191 bytes unfilled, so
`final >= target` itself does not hold in general). -/
theorem pad_to_target_size_amended (pre : Str) (targetSize : Nat)
    (huniq : ∀ i, i < pre.length →
      ((pre ++ closingTag).drop i).take closingTag.length ≠ closingTag) :
    pad_to_target_size (pre ++ closingTag) targetSize
        = pre ++ paddingContent ((targetSize - (pre ++ closingTag).length) / 8192)
            ++ closingTag ∧
    targetSize ≤ (pad_to_target_size (pre ++ closingTag) targetSize).length + 8191 ∧
    (∀ m : Str, containsSub m pre = true →
      containsSub m (pad_to_target_size (pre ++ closingTag) targetSize) = true) ∧
    (∀ i, paddingChunk i = commentOpenTag ++ chunkInner i ++ commentCloseTag ++ ['\n'] ∧
      ∀ c ∈ chunkInner i, c ≠ '-' ∧ c ≠ '<' ∧ c ≠ '>') := by
  have hdecomp : pad_to_target_size (pre ++ closingTag) targetSize
      = pre ++ paddingContent ((targetSize - (pre ++ closingTag).length) / 8192)
          ++ closingTag := by
    unfold pad_to_target_size
    by_cases hlt : (pre ++ closingTag).length < targetSize
    · rw [if_pos hlt, if_pos (containsSub_self_append closingTag pre)]
      rw [replaceAll_tail_occurrence closingTag _ closingTag_ne_nil pre huniq]
      simp only [List.append_assoc]
    · rw [if_neg hlt]
      have hz : targetSize - (pre ++ closingTag).length = 0 := by omega
      rw [hz]
      simp [paddingContent]
  refine ⟨hdecomp, ?_, ?_, ?_⟩
  · rw [hdecomp]
    have hgap := Nat.div_add_mod (targetSize - (pre ++ closingTag).length) 8192
    have hmod : (targetSize - (pre ++ closingTag).length) % 8192 < 8192 :=
      Nat.mod_lt _ (by omega)
    have hpad := paddingContent_length_ge ((targetSize - (pre ++ closingTag).length) / 8192)
    have hlen : (pre ++ paddingContent ((targetSize - (pre ++ closingTag).length) / 8192)
        ++ closingTag).length
        = pre.length
          + (paddingContent ((targetSize - (pre ++ closingTag).length) / 8192)).length
          + closingTag.length := by
      simp only [List.length_append]
    have hL : (pre ++ closingTag).length = pre.length + closingTag.length :=
      List.length_append pre closingTag
    rw [hlen]
    omega
  · intro m hm
    rw [hdecomp, List.append_assoc]
    exact containsSub_append_left m pre _ hm
  · intro i
    exact ⟨paddingChunk_decomp i, fun c hc => chunkInner_chars i c hc⟩

/-- Witness for C1 (amended) at a concrete document and target. -/
theorem pad_to_target_size_amended_witness :
    pad_to_target_size (padBody ++ closingTag) 200
        = padBody ++ paddingContent ((200 - (padBody ++ closingTag).length) / 8192)
            ++ closingTag ∧
    200 ≤ (pad_to_target_size (padBody ++ closingTag) 200).length + 8191 ∧
    containsSub rootMarker (pad_to_target_size (padBody ++ closingTag) 200) = true :=
  ⟨(pad_to_target_size_amended padBody 200 (by decide)).1,
   (pad_to_target_size_amended padBody 200 (by decide)).2.1,
   (pad_to_target_size_amended padBody 200 (by decide)).2.2.1 rootMarker (by decide)⟩

/-- Counterexample to C1 as stated: a 142-byte document padded toward a
10000-byte target receives only `9858 / 8192 = 1` filler chunk of 8199
bytes, so the result (8341 bytes) stays below the target even though the
input was below the target — the guarantee `final_size >= target_min_bytes`
fails. -/
theorem pad_shortfall_counterexample :
    (padBody ++ closingTag).length < 10000 ∧
    (pad_to_target_size (padBody ++ closingTag) 10000).length < 10000 := by
  have hdecomp := (pad_to_target_size_amended padBody 10000 (by decide)).1
  have hq : (10000 - (padBody ++ closingTag).length) / 8192 = 1 := by decide
  rw [hq] at hdecomp
  have hpc : (paddingContent 1).length = 8199 := by
    unfold paddingContent
    rw [show List.range 1 = [0] from rfl]
    simp only [List.map_cons, List.map_nil, List.flatten_cons, List.flatten_nil,
      List.append_nil]
    rw [paddingChunk_length 0]
    have h0 : (natDigits 0).length = 1 := by decide
    omega
  have hbody : padBody.length = 109 := by decide
  constructor
  · rw [List.length_append, hbody, closingTag_length]
    omega
  · rw [hdecomp]
    simp only [List.length_append]
    rw [hbody, closingTag_length, hpc]
    omega

/-- Counterexample to C4 as stated: the quoted-span lookup-table engine
`_apply_corrections` is not idempotent — the table chains
`enable -> enabled`, so the attribute value `"enable"` becomes `"enabled"`
after one pass and `"enabledd"` after a second pass. -/
theorem apply_corrections_not_idempotent :
    apply_corrections (apply_corrections correctionInput)
      ≠ apply_corrections correctionInput := by
  decide

theorem quote_mem_drop (rep r₀ : Str) (h : rep = r₀ ++ ['"']) (i : Nat)
    (hi : i < rep.length) : '"' ∈ rep.drop i := by
  subst h
  rw [List.drop_append_eq_append_drop]
  have hlen : i ≤ r₀.length := by
    simp only [List.length_append, List.length_singleton] at hi
    omega
  have hz : i - r₀.length = 0 := by omega
  rw [hz, List.drop_zero]
  simp

theorem matchF_rep_append (p rep : Str) (hp : p ≠ []) (hA : '"' ∉ p)
    (hrep : ∃ r₀, rep = r₀ ++ ['"']) (hC : CCond p rep)
    (out : Str) (hout : ∀ k, ¬ MatchF p (out.drop k)) :
    ∀ i, ¬ MatchF p ((rep ++ out).drop i) := by
  intro i hMF
  by_cases hi : rep.length ≤ i
  · have hdrop : (rep ++ out).drop i = out.drop (i - rep.length) := by
      rw [List.drop_append_eq_append_drop, List.drop_eq_nil_of_le hi, List.nil_append]
    rw [hdrop] at hMF
    exact hout (i - rep.length) hMF
  · push_neg at hi
    have hdrop : (rep ++ out).drop i = rep.drop i ++ out := by
      rw [List.drop_append_eq_append_drop, Nat.sub_eq_zero_of_le (Nat.le_of_lt hi),
        List.drop_zero]
    rw [hdrop] at hMF
    obtain ⟨htake, hlook⟩ := hMF
    by_cases hip : i + p.length < rep.length
    · apply hC i hi hip
      have hzlen : p.length - (rep.drop i).length = 0 := by
        rw [List.length_drop]
        omega
      constructor
      · rw [List.take_append_eq_append_take, hzlen, List.take_zero, List.append_nil] at htake
        exact htake
      · rw [List.drop_append_eq_append_drop, hzlen, List.drop_zero, List.drop_drop,
          Nat.add_comm] at hlook
        rw [List.drop_drop, Nat.add_comm]
        intro hq
        apply hlook
        rw [List.head?_append, hq]
        rfl
    · push_neg at hip
      obtain ⟨r₀, hr⟩ := hrep
      have hqin : '"' ∈ rep.drop i := quote_mem_drop rep r₀ hr i hi
      have h2 : rep.drop i = (rep.drop i ++ out).take (rep.drop i).length :=
        (List.take_left _ _).symm
      have h3 : rep.drop i = p.take (rep.drop i).length := by
        conv_lhs => rw [h2]
        rw [← htake, List.take_take]
        congr 1
        rw [List.length_drop]
        omega
      have hpre : rep.drop i <+: p := by
        rw [h3]
        exact List.take_prefix _ _
      exact hA (hpre.subset hqin)

theorem matchF_nil_false (q : Str) (hq : q ≠ []) : ¬ MatchF q [] := by
  intro h
  obtain ⟨htake, _⟩ := h
  rw [List.take_nil] at htake
  exact hq htake.symm

theorem substNL_decomp (q rq : Str) (hq : q ≠ []) :
    ∀ (n : Nat) (s : Str), s.length ≤ n →
      (hasMatch q s = false ∧ substNL q rq s = s) ∨
      ∃ j, MatchF q (s.drop j) ∧
        substNL q rq s = s.take j ++ rq ++ substNL q rq (s.drop (j + q.length)) := by
  intro n
  induction n with
  | zero =>
    intro s h
    have : s = [] := List.eq_nil_of_length_eq_zero (Nat.le_zero.mp h)
    subst this
    left
    refine ⟨?_, rfl⟩
    show matchFront q [] = false
    rw [matchFront_eq_false_iff]
    exact matchF_nil_false q hq
  | succ m ih =>
    intro s h
    cases s with
    | nil =>
      left
      refine ⟨?_, rfl⟩
      show matchFront q [] = false
      rw [matchFront_eq_false_iff]
      exact matchF_nil_false q hq
    | cons c t =>
      by_cases hm : matchFront q (c :: t)
      · right
        refine ⟨0, ?_, ?_⟩
        · rw [List.drop_zero]
          exact (matchFront_eq_true_iff q (c :: t)).mp hm
        · rw [substNL_cons q rq hq c t, if_pos hm]
          simp only [List.take_zero, List.nil_append, Nat.zero_add]
      · rcases ih t (Nat.succ_le_succ_iff.mp h) with ⟨hnom, hid⟩ | ⟨j, hj, heq⟩
        · left
          constructor
          · show (matchFront q (c :: t) || hasMatch q t) = false
            rw [hnom, Bool.or_false]
            exact Bool.not_eq_true _ ▸ (by simpa using hm)
          · rw [substNL_cons q rq hq c t, if_neg hm, hid]
        · right
          refine ⟨j + 1, ?_, ?_⟩
          · rw [List.drop_succ_cons]
            exact hj
          · rw [substNL_cons q rq hq c t, if_neg hm, heq]
            have harith : j + 1 + q.length = (j + q.length) + 1 := by omega
            rw [harith, List.drop_succ_cons, List.take_succ_cons]
            rfl

theorem head?_take_pos (l : Str) (k : Nat) (hk : 1 ≤ k) : (l.take k).head? = l.head? := by
  cases l with
  | nil => simp
  | cons a t =>
    cases k with
    | zero => omega
    | succ m => simp [List.take_succ_cons]

theorem matchF_front_preserved (p q rq : Str) (hp : p ≠ []) (hq : q ≠ [])
    (hAp : '"' ∉ p) (hAq : '"' ∉ q) (hrq : ∃ r₀, rq = r₀ ++ ['"'])
    (hD : DCond p q rq) (c : Char) (s' : Str)
    (hnm : ¬ MatchF p (c :: s')) :
    ¬ MatchF p (c :: substNL q rq s') := by
  intro hMF
  rcases substNL_decomp q rq hq s'.length s' le_rfl with ⟨hnom, hid⟩ | ⟨j, hj, heq⟩
  · rw [hid] at hMF
    exact hnm hMF
  · obtain ⟨hjtake, hjlook⟩ := hj
    have hql : 1 ≤ q.length := by
      cases q with
      | nil => exact absurd rfl hq
      | cons a b => simp
    have hjlen : q.length ≤ s'.length - j := by
      have := congrArg List.length hjtake
      simp only [List.length_take, List.length_drop] at this
      omega
    have hjs : j < s'.length := by omega
    have hsplitq : s'.drop j = q ++ (s'.drop j).drop q.length := by
      conv_lhs => rw [← List.take_append_drop q.length (s'.drop j)]
      rw [hjtake]
    obtain ⟨htake, hlook⟩ := hMF
    obtain ⟨a, p', hpp⟩ := List.exists_cons_of_ne_nil hp
    subst hpp
    rw [heq] at htake hlook
    simp only [List.length_cons, List.take_succ_cons] at htake
    injection htake with hac htk
    subst hac
    simp only [List.length_cons, List.drop_succ_cons] at hlook
    apply hnm
    by_cases hjp : p'.length ≤ j
    · have hlenjtake : (s'.take j).length = j := by
        rw [List.length_take]
        omega
      have htk' : (s'.take j ++ rq ++ substNL q rq (s'.drop (j + q.length))).take p'.length
          = s'.take p'.length := by
        rw [List.append_assoc, List.take_append_eq_append_take, hlenjtake]
        have hz : p'.length - j = 0 := by omega
        rw [hz, List.take_zero, List.append_nil, List.take_take]
        congr 1
        omega
      rw [htk'] at htk
      constructor
      · simp only [List.length_cons, List.take_succ_cons]
        rw [htk]
      · simp only [List.length_cons, List.drop_succ_cons]
        by_cases hj2 : p'.length < j
        · have hsplit2 : ((s'.take j ++ rq ++ substNL q rq (s'.drop (j + q.length))).drop
              p'.length).head? = (s'.drop p'.length).head? := by
            rw [List.append_assoc, List.drop_append_eq_append_drop, hlenjtake]
            have hz : p'.length - j = 0 := by omega
            rw [hz, List.drop_zero, List.head?_append]
            rw [List.drop_take j p'.length s']
            have htkh := head?_take_pos (s'.drop p'.length) (j - p'.length) (by omega)
            rw [htkh]
            have hne : s'.drop p'.length ≠ [] := by
              intro hnil
              have := congrArg List.length hnil
              rw [List.length_drop] at this
              simp at this
              omega
            cases hd : s'.drop p'.length with
            | nil => exact absurd hd hne
            | cons d rest' => rfl
          rw [← hsplit2]
          exact hlook
        · have hje : j = p'.length := by omega
          subst hje
          rw [hsplitq, List.head?_append]
          obtain ⟨b, q', hqq⟩ := List.exists_cons_of_ne_nil hq
          subst hqq
          simp only [List.cons_append, List.head?_cons]
          intro hsome
          have hb : b = '"' := by
            simpa using hsome
          apply hAq
          rw [← hb]
          simp
    · push_neg at hjp
      have hlenjtake : (s'.take j).length = j := by
        rw [List.length_take]
        omega
      have htk2 : p' = s'.take j
          ++ (rq ++ substNL q rq (s'.drop (j + q.length))).take (p'.length - j) := by
        have hstep := htk
        rw [List.append_assoc, List.take_append_eq_append_take, hlenjtake,
          List.take_take] at hstep
        have hmin : min p'.length j = j := by omega
        rw [hmin] at hstep
        exact hstep.symm
      by_cases hLr : rq.length < p'.length - j
      · obtain ⟨r₀, hr⟩ := hrq
        have hqmem : '"' ∈ (rq ++ substNL q rq (s'.drop (j + q.length))).take
            (p'.length - j) := by
          rw [List.take_append_eq_append_take]
          apply List.mem_append.mpr
          left
          rw [List.take_all_of_le (by omega)]
          rw [hr]
          simp
        have hqp : '"' ∈ p' := by
          have hmm := List.mem_append.mpr
            (Or.inr hqmem :
              '"' ∈ s'.take j ∨ '"' ∈ (rq ++ substNL q rq (s'.drop (j + q.length))).take
                (p'.length - j))
          rw [← htk2] at hmm
          exact hmm
        exact (hAp (List.mem_cons_of_mem c hqp)).elim
      · push_neg at hLr
        have htkL : (rq ++ substNL q rq (s'.drop (j + q.length))).take (p'.length - j)
            = rq.take (p'.length - j) := by
          rw [List.take_append_eq_append_take]
          have hz : p'.length - j - rq.length = 0 := by omega
          rw [hz, List.take_zero, List.append_nil]
        have hps : p' = s'.take j ++ rq.take (p'.length - j) := by
          conv_lhs => rw [htk2]
          rw [htkL]
        have hdropP : (c :: p').drop ((c :: p').length - (p'.length - j))
            = rq.take (p'.length - j) := by
          simp only [List.length_cons]
          have harr : p'.length + 1 - (p'.length - j) = j + 1 := by omega
          rw [harr, List.drop_succ_cons]
          conv_lhs => rw [hps]
          rw [List.drop_append_eq_append_drop, hlenjtake]
          have hz1 : (s'.take j).drop j = [] :=
            List.drop_eq_nil_of_le (le_of_eq hlenjtake)
          have hz2 : j - j = 0 := by omega
          rw [hz1, hz2, List.drop_zero, List.nil_append]
        have hDres := hD (p'.length - j) (by simp only [List.length_cons]; omega)
          (by omega) hLr hdropP
        obtain ⟨hLq, hrqq⟩ := hDres
        have hchars : s'.take p'.length = p' := by
          have h1 : s'.take p'.length = s'.take j ++ (s'.drop j).take (p'.length - j) := by
            have harr : p'.length = j + (p'.length - j) := by omega
            conv_lhs => rw [harr]
            exact List.take_add s' j (p'.length - j)
          have h2 : (s'.drop j).take (p'.length - j) = q.take (p'.length - j) := by
            rw [hsplitq, List.take_append_eq_append_take]
            have hz : p'.length - j - q.length = 0 := by omega
            rw [hz, List.take_zero, List.append_nil]
          rw [h1, h2, ← hrqq, ← hps]
        constructor
        · simp only [List.length_cons, List.take_succ_cons]
          rw [hchars]
        · simp only [List.length_cons, List.drop_succ_cons]
          have hsp : s'.drop p'.length
              = q.drop (p'.length - j) ++ (s'.drop j).drop q.length := by
            have h1 : s'.drop p'.length = (s'.drop j).drop (p'.length - j) := by
              rw [List.drop_drop]
              congr 1
              omega
            rw [h1]
            conv_lhs => rw [hsplitq]
            rw [List.drop_append_eq_append_drop]
            have hz : p'.length - j - q.length = 0 := by omega
            rw [hz, List.drop_zero]
          rw [hsp]
          by_cases hLqe : p'.length - j < q.length
          · have hne : q.drop (p'.length - j) ≠ [] := by
              intro hnil
              have := congrArg List.length hnil
              rw [List.length_drop] at this
              simp at this
              omega
            cases hdq : q.drop (p'.length - j) with
            | nil => exact absurd hdq hne
            | cons b q'' =>
              simp only [List.cons_append, List.head?_cons]
              intro hsome
              have hb : b = '"' := by simpa using hsome
              apply hAq
              rw [← hb]
              have : b ∈ q.drop (p'.length - j) := by
                rw [hdq]
                simp
              exact List.drop_subset _ _ this
          · have hLe : p'.length - j = q.length := by omega
            have hnil : q.drop (p'.length - j) = [] := by
              rw [hLe]
              exact List.drop_length q
            rw [hnil, List.nil_append]
            exact hjlook

theorem cross_noMatch (p q rq : Str) (hp : p ≠ []) (hq : q ≠ [])
    (hAp : '"' ∉ p) (hAq : '"' ∉ q) (hrq : ∃ r₀, rq = r₀ ++ ['"'])
    (hC : CCond p rq) (hD : DCond p q rq) :
    ∀ (n : Nat) (s : Str), s.length ≤ n → hasMatch p s = false →
      hasMatch p (substNL q rq s) = false := by
  intro n
  induction n with
  | zero =>
    intro s h hs
    have : s = [] := List.eq_nil_of_length_eq_zero (Nat.le_zero.mp h)
    subst this
    rw [substNL_nil]
    exact hs
  | succ m ih =>
    intro s h hs
    cases s with
    | nil =>
      rw [substNL_nil]
      exact hs
    | cons c t =>
      have hql : 1 ≤ q.length := by
        cases q with
        | nil => exact absurd rfl hq
        | cons a b => simp
      rw [substNL_cons q rq hq c t]
      by_cases hm : matchFront q (c :: t)
      · rw [if_pos hm]
        have hdropmatch : hasMatch p ((c :: t).drop q.length) = false :=
          hasMatch_drop p (c :: t) hs q.length
        have hlen : ((c :: t).drop q.length).length ≤ m := by
          simp only [List.length_drop, List.length_cons]
          have := Nat.succ_le_succ_iff.mp h
          omega
        have hout := ih _ hlen hdropmatch
        rw [hasMatch_eq_false_iff]
        intro i
        exact matchF_rep_append p rq hp hAp hrq hC _
          (fun k => (hasMatch_eq_false_iff p _).mp hout k) i
      · rw [if_neg hm]
        have h0 : ¬ MatchF p (c :: t) := not_MatchF_of_hasMatch_false p _ hs
        have ht : hasMatch p t = false := by
          have := hasMatch_drop p (c :: t) hs 1
          simpa using this
        have hout := ih t (Nat.succ_le_succ_iff.mp h) ht
        show (matchFront p (c :: substNL q rq t) || hasMatch p (substNL q rq t)) = false
        rw [hout, Bool.or_false, matchFront_eq_false_iff]
        exact matchF_front_preserved p q rq hp hq hAp hAq hrq hD c t h0

theorem same_noMatch (p rp : Str) (hp : p ≠ []) (hAp : '"' ∉ p)
    (hrp : ∃ r₀, rp = r₀ ++ ['"']) (hC : CCond p rp) (hD : DCond p p rp) :
    ∀ (n : Nat) (s : Str), s.length ≤ n → hasMatch p (substNL p rp s) = false := by
  intro n
  induction n with
  | zero =>
    intro s h
    have : s = [] := List.eq_nil_of_length_eq_zero (Nat.le_zero.mp h)
    subst this
    rw [substNL_nil]
    show matchFront p [] = false
    rw [matchFront_eq_false_iff]
    exact matchF_nil_false p hp
  | succ m ih =>
    intro s h
    cases s with
    | nil =>
      rw [substNL_nil]
      show matchFront p [] = false
      rw [matchFront_eq_false_iff]
      exact matchF_nil_false p hp
    | cons c t =>
      have hql : 1 ≤ p.length := by
        cases p with
        | nil => exact absurd rfl hp
        | cons a b => simp
      rw [substNL_cons p rp hp c t]
      by_cases hm : matchFront p (c :: t)
      · rw [if_pos hm]
        have hlen : ((c :: t).drop p.length).length ≤ m := by
          simp only [List.length_drop, List.length_cons]
          have := Nat.succ_le_succ_iff.mp h
          omega
        have hout := ih _ hlen
        rw [hasMatch_eq_false_iff]
        intro i
        exact matchF_rep_append p rp hp hAp hrp hC _
          (fun k => (hasMatch_eq_false_iff p _).mp hout k) i
      · rw [if_neg hm]
        have h0 : ¬ MatchF p (c :: t) := by
          rw [← matchFront_eq_false_iff]
          simpa using hm
        have hout := ih t (Nat.succ_le_succ_iff.mp h)
        show (matchFront p (c :: substNL p rp t) || hasMatch p (substNL p rp t)) = false
        rw [hout, Bool.or_false, matchFront_eq_false_iff]
        exact matchF_front_preserved p p rp hp hp hAp hAp hrp hD c t h0

theorem concat_quote_of_getLast? (l : Str) (h : l.getLast? = some '"') :
    ∃ l₀, l = l₀ ++ ['"'] := by
  induction l using List.reverseRecOn with
  | nil => simp at h
  | append_singleton l₀ a _ =>
    rw [List.getLast?_concat] at h
    have ha : a = '"' := by simpa using h
    exact ⟨l₀, by rw [ha]⟩

theorem foldl_cross (p : Str) (hp : p ≠ []) (hAp : '"' ∉ p) :
    ∀ (rules : List (Str × Str)) (s : Str),
      (∀ pr ∈ rules, pr.1 ≠ [] ∧ '"' ∉ pr.1 ∧ pr.2.getLast? = some '"' ∧
        CCond p pr.2 ∧ DCond p pr.1 pr.2) →
      hasMatch p s = false →
      hasMatch p (rules.foldl (fun acc pr => substNL pr.1 pr.2 acc) s) = false := by
  intro rules
  induction rules with
  | nil => intro s _ hs; exact hs
  | cons r rest ih =>
    intro s hconds hs
    rw [List.foldl_cons]
    obtain ⟨hr1, hr2, hr3, hr4, hr5⟩ := hconds r (List.mem_cons_self r rest)
    have hstep : hasMatch p (substNL r.1 r.2 s) = false :=
      cross_noMatch p r.1 r.2 hp hr1 hAp hr2 (concat_quote_of_getLast? r.2 hr3)
        hr4 hr5 s.length s le_rfl hs
    exact ih (substNL r.1 r.2 s)
      (fun pr hpr => hconds pr (List.mem_cons_of_mem r hpr)) hstep

theorem noMatch_visible_true (s : Str) :
    hasMatch gpVisibleTrue (apply_grammar_corrections s) = false := by
  have hsame : hasMatch gpVisibleTrue (substNL gpVisibleTrue grVisibleTrue s) = false :=
    same_noMatch gpVisibleTrue grVisibleTrue (by decide) (by decide)
      ⟨("visible=\"true").toList, by decide⟩ (by decide) (by decide) _ s le_rfl
  exact foldl_cross gpVisibleTrue (by decide) (by decide)
    [(gpEnabledFalse, grEnabledFalse), (gpEnabledTrue, grEnabledTrue),
     (gpActiveTrue, grActiveTrue), (gpVersion, grVersion)]
    (substNL gpVisibleTrue grVisibleTrue s) (by decide) hsame

theorem noMatch_enabled_false (s : Str) :
    hasMatch gpEnabledFalse (apply_grammar_corrections s) = false := by
  have hsame : hasMatch gpEnabledFalse
      (substNL gpEnabledFalse grEnabledFalse (substNL gpVisibleTrue grVisibleTrue s))
        = false :=
    same_noMatch gpEnabledFalse grEnabledFalse (by decide) (by decide)
      ⟨("enabled=\"false").toList, by decide⟩ (by decide) (by decide) _ _ le_rfl
  exact foldl_cross gpEnabledFalse (by decide) (by decide)
    [(gpEnabledTrue, grEnabledTrue), (gpActiveTrue, grActiveTrue), (gpVersion, grVersion)]
    (substNL gpEnabledFalse grEnabledFalse (substNL gpVisibleTrue grVisibleTrue s))
    (by decide) hsame

theorem noMatch_enabled_true (s : Str) :
    hasMatch gpEnabledTrue (apply_grammar_corrections s) = false := by
  have hsame : hasMatch gpEnabledTrue
      (substNL gpEnabledTrue grEnabledTrue (substNL gpEnabledFalse grEnabledFalse
        (substNL gpVisibleTrue grVisibleTrue s))) = false :=
    same_noMatch gpEnabledTrue grEnabledTrue (by decide) (by decide)
      ⟨("enabled=\"true").toList, by decide⟩ (by decide) (by decide) _ _ le_rfl
  exact foldl_cross gpEnabledTrue (by decide) (by decide)
    [(gpActiveTrue, grActiveTrue), (gpVersion, grVersion)]
    (substNL gpEnabledTrue grEnabledTrue (substNL gpEnabledFalse grEnabledFalse
      (substNL gpVisibleTrue grVisibleTrue s))) (by decide) hsame

theorem noMatch_active_true (s : Str) :
    hasMatch gpActiveTrue (apply_grammar_corrections s) = false := by
  have hsame : hasMatch gpActiveTrue
      (substNL gpActiveTrue grActiveTrue (substNL gpEnabledTrue grEnabledTrue
        (substNL gpEnabledFalse grEnabledFalse (substNL gpVisibleTrue grVisibleTrue s))))
        = false :=
    same_noMatch gpActiveTrue grActiveTrue (by decide) (by decide)
      ⟨("active=\"true").toList, by decide⟩ (by decide) (by decide) _ _ le_rfl
  exact foldl_cross gpActiveTrue (by decide) (by decide)
    [(gpVersion, grVersion)]
    (substNL gpActiveTrue grActiveTrue (substNL gpEnabledTrue grEnabledTrue
      (substNL gpEnabledFalse grEnabledFalse (substNL gpVisibleTrue grVisibleTrue s))))
    (by decide) hsame

theorem noMatch_version (s : Str) :
    hasMatch gpVersion (apply_grammar_corrections s) = false := by
  exact same_noMatch gpVersion grVersion (by decide) (by decide)
    ⟨("version=\"29.3.1").toList, by decide⟩ (by decide) (by decide) _ _ le_rfl

theorem agc_unfold (x : Str) :
    apply_grammar_corrections x
      = substNL gpVersion grVersion (substNL gpActiveTrue grActiveTrue
          (substNL gpEnabledTrue grEnabledTrue (substNL gpEnabledFalse grEnabledFalse
            (substNL gpVisibleTrue grVisibleTrue x)))) := rfl

/-- Claim C4 (amended): the regex-based engine `apply_grammar_corrections`
is idempotent on every input — after one pass no pattern of the rule list
matches anywhere in the output (each replacement wraps the value in quotes
and the lookahead blocks re-matching), so a second pass is the identity.
The claimed idempotence fails for the lookup-table `_apply_corrections`
(see the recorded counterexample), so it holds for only one of the two
engines. -/
theorem grammar_corrections_idempotent (s : Str) :
    apply_grammar_corrections (apply_grammar_corrections s)
      = apply_grammar_corrections s := by
  have h1 := noMatch_visible_true s
  have h2 := noMatch_enabled_false s
  have h3 := noMatch_enabled_true s
  have h4 := noMatch_active_true s
  have h5 := noMatch_version s
  rw [agc_unfold (apply_grammar_corrections s)]
  rw [substNL_id_of_noMatch gpVisibleTrue grVisibleTrue (by decide) _ h1,
    substNL_id_of_noMatch gpEnabledFalse grEnabledFalse (by decide) _ h2,
    substNL_id_of_noMatch gpEnabledTrue grEnabledTrue (by decide) _ h3,
    substNL_id_of_noMatch gpActiveTrue grActiveTrue (by decide) _ h4,
    substNL_id_of_noMatch gpVersion grVersion (by decide) _ h5]
